import Mathlib

/-!
Verification of the Obsidian vault synchronization core of the
obsidian-task-master repository.

The JavaScript source (`scripts/modules/task-manager/obsidian-sync.js`,
`scripts/modules/task-manager/parse-obsidian-notes.js`, and the utility
functions defined in the fork-plan document
`Task-master fork plan/modificacoes-sistema-dependencias-obsidian.md`)
is shallowly embedded as executable Lean definitions.

Modelling conventions:
* Timestamps (`lastSyncAt`, `lastModified`) are parsed integer epoch
  values (`Option Int`); `none` models an absent or falsy field, and the
  epoch is `0`, mirroring `new Date(x || y || 0)`.
* Strings are Lean `String`s; all text manipulation is done on the
  underlying `List Char` so that the kernel can evaluate it.  Multiline
  regular expressions anchored with `^...$` (`m` flag) are modelled by
  splitting the text on the newline character; this is faithful for text
  whose lines are separated by `\n`.
* The file system is explicit: the vault is a list of
  `(relative path, content)` pairs and the canonical store is a list of
  tasks handed in by the caller; a `writeJSON` call is recorded as a
  boolean.
-/

namespace ObsidianSync

/-- Does the character list `p` occur as a prefix of `l`?  Models
`String.prototype.startsWith` on exact characters. -/
def startsWithList : List Char → List Char → Bool
  | [], _ => true
  | _ :: _, [] => false
  | c :: cs, d :: ds => c = d && startsWithList cs ds

/-- Does the character list `needle` occur contiguously inside `hay`?
Models `String.prototype.includes`. -/
def containsSub (needle : List Char) : List Char → Bool
  | [] => needle.isEmpty
  | d :: ds => startsWithList needle (d :: ds) || containsSub needle ds

/-- ASCII-wise lower-casing, modelling `String.prototype.toLowerCase`. -/
def toLowerList (l : List Char) : List Char := l.map Char.toLower

/-- The whitespace characters stripped by `String.prototype.trim`
(modelled for the common ASCII whitespace plus NBSP). -/
def isJsSpace (c : Char) : Bool :=
  c = ' ' || c = '\t' || c = '\n' || c = '\r' || c.toNat = 11 ||
    c.toNat = 12 || c.toNat = 160

/-- `String.prototype.trim` on a character list. -/
def jsTrim (l : List Char) : List Char :=
  ((l.dropWhile isJsSpace).reverse.dropWhile isJsSpace).reverse

/-- Helper for `splitOnNl`: prepend a character to the first part. -/
def consHead (c : Char) : List (List Char) → List (List Char)
  | [] => [[c]]
  | h :: t => (c :: h) :: t

/-- Split a character list at every newline.  This is how a JavaScript
multiline-anchored regex sees its input: the result is the list of lines
(always nonempty; a trailing newline yields a final empty line). -/
def splitOnNl : List Char → List (List Char)
  | [] => [[]]
  | c :: cs => if c = '\n' then [] :: splitOnNl cs else consHead c (splitOnNl cs)

/-- Rejoin lines with newlines; the inverse of `splitOnNl`. -/
def joinNl : List (List Char) → List Char
  | [] => []
  | [l] => l
  | l :: l2 :: ls => l ++ '\n' :: joinNl (l2 :: ls)

/-- Index of the first line satisfying `p` (the line a multiline-anchored
regex matches first). -/
def findLineIdx (p : List Char → Bool) : List (List Char) → Option Nat
  | [] => none
  | l :: ls => if p l then some 0 else (findLineIdx p ls).map (· + 1)

/-- A canonical task record — the fields that take part in the
synchronization logic.  The vault extractor also produces values of this
shape (JavaScript objects are structurally typed); fields the extractor
does not set stay at their defaults (`none` / `""`). -/
structure Task where
  id : Nat := 0
  title : String := ""
  status : String := ""
  description : String := ""
  sourceFile : String := ""
  lastModified : Option Int := none
  lastSyncAt : Option Int := none
  syncStatus : String := ""
  deriving DecidableEq

/-- `new Date(taskB.lastModified || taskB.lastSyncAt || 0)` from
`hasConflict` (obsidian-sync.js line 172): the incoming record's
effective modification evidence, falling back to the epoch (0). -/
def effectiveEvidence (b : Task) : Int :=
  match b.lastModified with
  | some t => t
  | none =>
    match b.lastSyncAt with
    | some t => t
    | none => 0

/-- `hasConflict(taskA, taskB)` (obsidian-sync.js lines 167-179). -/
def hasConflict (a b : Task) : Bool :=
  match a.lastSyncAt with
  | none => false
  | some syncTime =>
    let taskTime := effectiveEvidence b
    decide (syncTime < taskTime) &&
      (a.title != b.title || a.status != b.status ||
        a.description != b.description)

/-- Does a line match `^- \[([ x])\] (.+)$` (obsidian-sync.js line 134)?
The line must begin with the six characters of a checkbox marker and
carry at least one further character. -/
def isTaskMatchLine (l : List Char) : Bool :=
  (startsWithList ("- [ ] ".data) l || startsWithList ("- [x] ".data) l) &&
    decide (6 < l.length)

/-- `extractTasksFromVault` (obsidian-sync.js lines 124-162) restricted
to the fields carried through the sync logic.  The vault is a list of
`(relative file path, file content)` pairs in scan order.  Note that
`isCompleted` is `match.includes('[x]')` — a substring test on the whole
matched line — and the title is the line minus its six-character checkbox
prefix (`match.replace(/^- \[([ x])\] /, '')`). -/
def extractTasksFromVault (files : List (String × String)) : List Task :=
  (files.map (fun fc =>
    ((splitOnNl fc.2.data).filter isTaskMatchLine).map (fun line =>
      { title := ⟨line.drop 6⟩
        status := if containsSub ("[x]".data) line then "done" else "pending"
        sourceFile := fc.1
        description := ⟨line.drop 6⟩ : Task }))).flatten

/-- The match predicate of `syncWithObsidian`'s from-obsidian loop
(obsidian-sync.js lines 55-58): same `sourceFile` AND same `title`. -/
def matchBidir (t v : Task) : Bool :=
  t.sourceFile == v.sourceFile && t.title == v.title

/-- The match predicate of `syncTasksFromObsidian`
(obsidian-sync.js lines 375-378): same `title` OR (both `sourceFile`s
truthy and equal). -/
def matchFromText (t v : Task) : Bool :=
  t.title == v.title ||
    (t.sourceFile != "" && v.sourceFile != "" && t.sourceFile == v.sourceFile)

/-- The largest id in a task list, or 0 when empty. -/
def maxIds (tasks : List Task) : Nat :=
  (tasks.map (·.id)).foldr Nat.max 0

/-- `Math.max(...tasksData.tasks.map(t => t.id), 0) + 1`
(obsidian-sync.js line 78). -/
def newIdBidir (tasks : List Task) : Nat := maxIds tasks + 1

/-- `tasksData.tasks.length > 0 ? Math.max(...tasksData.tasks.map(t =>
t.id)) + 1 : 1` (obsidian-sync.js line 409).  For a nonempty list of
natural-number ids, `Math.max` over the spread list equals the fold with
initial value 0. -/
def newIdFromText (tasks : List Task) : Nat :=
  if 0 < tasks.length then maxIds tasks + 1 else 1

/-- `Object.assign(existingTask, vaultTask, { id, syncStatus: 'synced',
lastSyncAt })` (obsidian-sync.js lines 68-72 and 395-399).  A `none`
timestamp models an absent property, which `Object.assign` does not
copy, so the target's value survives. -/
def mergeTask (t v : Task) (now : Int) : Task :=
  { t with
    title := v.title
    status := v.status
    description := v.description
    sourceFile := v.sourceFile
    lastModified :=
      match v.lastModified with
      | some x => some x
      | none => t.lastModified
    syncStatus := "synced"
    lastSyncAt := some now }

/-- `existingTask.syncStatus = 'conflict'` (obsidian-sync.js lines 63
and 386). -/
def markConflict (t : Task) : Task := { t with syncStatus := "conflict" }

/-- Replace the first list element satisfying `p` by its image under
`f` — the effect of mutating the object returned by `Array.find`. -/
def replaceFirst (p : Task → Bool) (f : Task → Task) : List Task → List Task
  | [] => []
  | t :: ts => if p t then f t :: ts else t :: replaceFirst p f ts

/-- The accumulating per-pass result: the in-memory task list plus the
`created` / `updated` / `conflicts` counters. -/
structure SyncRes where
  tasks : List Task := []
  created : Nat := 0
  updated : Nat := 0
  conflicts : Nat := 0
  deriving DecidableEq

/-- One iteration of the from-text loop, common to
`syncWithObsidian` (lines 54-88, with `dryRun := false`) and
`syncTasksFromObsidian` (lines 372-428), parameterized by the match
predicate and the new-id formula in which the two differ.  In dry-run
mode the counters advance but the task list is untouched. -/
def syncStep (matchPred : Task → Task → Bool) (newId : List Task → Nat)
    (dryRun : Bool) (now : Int) (st : SyncRes) (v : Task) : SyncRes :=
  match st.tasks.find? (fun t => matchPred t v) with
  | some t =>
    if hasConflict t v then
      { st with
        tasks :=
          if dryRun then st.tasks
          else replaceFirst (fun t => matchPred t v) markConflict st.tasks
        conflicts := st.conflicts + 1 }
    else
      { st with
        tasks :=
          if dryRun then st.tasks
          else replaceFirst (fun t => matchPred t v)
            (fun t => mergeTask t v now) st.tasks
        updated := st.updated + 1 }
  | none =>
    if dryRun then { st with created := st.created + 1 }
    else
      { st with
        tasks := st.tasks ++
          [{ v with
              id := newId st.tasks
              syncStatus := "synced"
              lastSyncAt := some now }]
        created := st.created + 1 }

/-- The from-obsidian branch of `syncWithObsidian` (obsidian-sync.js
lines 49-92) run on already-extracted vault records.  The boolean
records whether `writeJSON` (line 91) runs: it is unconditional in this
function. -/
def syncWithObsidianFromBranch (vaultTasks tasks : List Task) (now : Int) :
    SyncRes × Bool :=
  (vaultTasks.foldl (syncStep matchBidir newIdBidir false now)
    { tasks := tasks }, true)

/-- `syncTasksFromObsidian` (obsidian-sync.js lines 341-437) run on
already-extracted vault records.  An empty extraction returns early with
zero counters and no write (lines 349-352); otherwise the boolean
records whether `writeJSON` (lines 430-433) runs: only outside dry-run
and only when something was created or updated. -/
def syncTasksFromObsidian (vaultTasks existing : List Task)
    (dryRun : Bool) (now : Int) : SyncRes × Bool :=
  if vaultTasks.isEmpty then ({ tasks := existing }, false)
  else
    let st := vaultTasks.foldl (syncStep matchFromText newIdFromText dryRun now)
      { tasks := existing }
    (st, !dryRun && (decide (0 < st.created) || decide (0 < st.updated)))

/-- The canonical store document on disk after `syncTasksFromObsidian`:
the in-memory list if `writeJSON` ran, the untouched previous document
otherwise. -/
def persistedAfterFromText (vaultTasks existing : List Task)
    (dryRun : Bool) (now : Int) : List Task :=
  let r := syncTasksFromObsidian vaultTasks existing dryRun now
  if r.2 then r.1.tasks else existing

/-- Expansion of a JavaScript string-replacement pattern
(`String.prototype.replace` with a string second argument): `$$` is a
literal dollar, `$&` the whole match, backquote-`$` the text before the
match, apostrophe-`$` the text after it, `$1` the single capture group
of the checkbox regex; any other `$` sequence is literal.  The two
special characters are compared via their code points (96 and 39). -/
def expandDollar (matched g1 pre suff : List Char) : List Char → List Char
  | [] => []
  | c :: rest =>
    if c = '$' then
      match rest with
      | [] => ['$']
      | d :: rest2 =>
        if d = '$' then '$' :: expandDollar matched g1 pre suff rest2
        else if d = '&' then matched ++ expandDollar matched g1 pre suff rest2
        else if d.toNat = 96 then pre ++ expandDollar matched g1 pre suff rest2
        else if d.toNat = 39 then suff ++ expandDollar matched g1 pre suff rest2
        else if d = '1' then g1 ++ expandDollar matched g1 pre suff rest2
        else '$' :: d :: expandDollar matched g1 pre suff rest2
    else c :: expandDollar matched g1 pre suff rest

/-- Does a line match the title-specific checkbox regex
`^- \[([ x])\] ${escapeRegex(task.title)}$` (obsidian-sync.js line 241)?
`escapeRegex` makes the title a literal, so for a title free of line
terminators this is exact line equality against the two alternatives. -/
def taskLineMatches (title : List Char) (line : List Char) : Bool :=
  decide (line = "- [ ] ".data ++ title) ||
    decide (line = "- [x] ".data ++ title)

/-- The replacement string `- ${newCheckbox} ${task.title}` with
`newCheckbox = task.status === 'done' ? '[x]' : '[ ]'`
(obsidian-sync.js lines 242-243). -/
def checkboxReplacement (task : Task) : List Char :=
  (if task.status == "done" then "- [x] ".data else "- [ ] ".data) ++
    task.title.data

/-- The checkbox regex's single capture group at the matched line: the
character inside the brackets. -/
def matchedGroup1 (title line : List Char) : List Char :=
  if line = "- [x] ".data ++ title then ['x'] else [' ']

/-- The text preceding the matched line (for the backquote-`$`
replacement pattern). -/
def preOf (lines : List (List Char)) (i : Nat) : List Char :=
  if i = 0 then [] else joinNl (lines.take i) ++ ['\n']

/-- The text following the matched line (for the apostrophe-`$`
replacement pattern). -/
def sufOf (lines : List (List Char)) (i : Nat) : List Char :=
  if i + 1 = lines.length then [] else '\n' :: joinNl (lines.drop (i + 1))

/-- `updateTaskInMarkdown(content, task)` (obsidian-sync.js lines
239-251): if some line matches the checkbox regex for the task's title,
the first such line is replaced by `checkboxReplacement` — subject to
JavaScript's `$`-pattern expansion against the match — otherwise
`\n- ${newCheckbox} ${task.title}\n` is appended. -/
def updateTaskInMarkdown (content : String) (task : Task) : String :=
  let lines := splitOnNl content.data
  match findLineIdx (taskLineMatches task.title.data) lines with
  | some i =>
    ⟨joinNl (lines.set i
      (expandDollar (lines.getD i [])
        (matchedGroup1 task.title.data (lines.getD i []))
        (preOf lines i) (sufOf lines i) (checkboxReplacement task)))⟩
  | none => ⟨content.data ++ '\n' :: (checkboxReplacement task ++ ['\n'])⟩

/-- One iteration of the to-obsidian loop of `syncWithObsidian`
(obsidian-sync.js lines 33-46): a task with a truthy `sourceFile` has
its markdown file updated and is counted; any other task is skipped. -/
def toBranchStep (acc : Nat × List String) (t : Task) : Nat × List String :=
  if t.sourceFile != "" then (acc.1 + 1, acc.2 ++ [t.sourceFile]) else acc

/-- The to-obsidian branch of `syncWithObsidian` (obsidian-sync.js lines
30-47): the result is the `updated` counter plus the list of target
files written, in order.  (The pure model has no I/O failures, so the
error list stays empty.) -/
def syncWithObsidianToBranch (tasks : List Task) : Nat × List String :=
  tasks.foldl toBranchStep (0, [])

/-- `String(task.id).padStart(3, '0')`. -/
def padStart3 (s : List Char) : List Char :=
  if 3 ≤ s.length then s else List.replicate (3 - s.length) '0' ++ s

/-- One character of `task.title.replace(/[^a-zA-Z0-9]/g, '-')`. -/
def slugChar (c : Char) : Char :=
  if c.isAlpha || c.isDigit then c else '-'

/-- The markdown path `syncTasksToObsidian` builds for a task
(obsidian-sync.js line 299). -/
def taskMarkdownPath (vaultPath : String) (t : Task) : String :=
  ⟨vaultPath.data ++ "/Tasks/task-".data ++ padStart3 (toString t.id).data ++
    '-' :: toLowerList (t.title.data.map slugChar) ++ ".md".data⟩

/-- Result of `syncTasksToObsidian`: counters plus the list of file
paths written, in order. -/
structure ToRes where
  created : Nat := 0
  updated : Nat := 0
  writes : List String := []
  deriving DecidableEq

/-- `syncTasksToObsidian` (obsidian-sync.js lines 280-335).
`existingFiles` is the set of markdown paths present before the pass;
`fs.existsSync` also sees files written earlier in the same pass.  In
dry-run mode the loop `continue`s before touching any counter. -/
def syncTasksToObsidianStep (vaultPath : String) (existingFiles : List String)
    (dryRun : Bool) (acc : ToRes) (t : Task) : ToRes :=
  let p := taskMarkdownPath vaultPath t
  if dryRun then acc
  else if existingFiles.contains p || acc.writes.contains p then
    { acc with updated := acc.updated + 1, writes := acc.writes ++ [p] }
  else
    { acc with created := acc.created + 1, writes := acc.writes ++ [p] }

/-- See `syncTasksToObsidianStep` — the loop of obsidian-sync.js lines
297-331. -/
def syncTasksToObsidian (vaultPath : String) (existingFiles : List String)
    (tasks : List Task) (dryRun : Bool) : ToRes :=
  tasks.foldl (syncTasksToObsidianStep vaultPath existingFiles dryRun) {}

/-- A draft task produced by the AI collaborator in
`parse-obsidian-notes.js`: a provisional id and dependency references to
other provisional ids. -/
structure DraftTask where
  id : Int
  dependencies : List Int := []
  deriving DecidableEq

/-- A draft after the id-remapping map pass (parse-obsidian-notes.js
lines 409-434): a sequential canonical id, dependencies still
provisional. -/
structure NewTask where
  id : Nat
  dependencies : List Int := []
  deriving DecidableEq

/-- A new task after the dependency-remapping pass
(parse-obsidian-notes.js lines 436-447). -/
structure RemappedTask where
  id : Nat
  dependencies : List Nat := []
  deriving DecidableEq

/-- The `taskMap` built during the map pass: provisional id ↦ assigned
sequential id, in insertion order (`Map.set`, later entries win). -/
def buildTaskMap (nextId : Nat) (drafts : List DraftTask) : List (Int × Nat) :=
  drafts.enum.map (fun p => (p.2.id, nextId + p.1))

/-- `taskMap.get(depId)`: the last binding wins, `none` when absent. -/
def taskMapGet (m : List (Int × Nat)) (k : Int) : Option Nat :=
  (m.reverse.find? (fun p => p.1 == k)).map (·.2)

/-- The map pass (parse-obsidian-notes.js lines 409-434): the i-th draft
receives id `nextId + i`. -/
def processNewTasks (nextId : Nat) (drafts : List DraftTask) : List NewTask :=
  drafts.enum.map (fun p => { id := nextId + p.1, dependencies := p.2.dependencies })

/-- The dependency-remapping forEach (parse-obsidian-notes.js lines
436-447): map every provisional dependency through `taskMap` (dropping
unresolved ones) and keep only targets that are strictly below the
dependent's id and exist among the existing tasks or the new batch. -/
def remapDependencies (existingTasks : List Task) (nextId : Nat)
    (drafts : List DraftTask) : List RemappedTask :=
  let taskMap := buildTaskMap nextId drafts
  let processed := processNewTasks nextId drafts
  processed.map (fun t =>
    { id := t.id
      dependencies := (t.dependencies.filterMap (taskMapGet taskMap)).filter
        (fun d => decide (d < t.id) &&
          (existingTasks.any (fun e => e.id == d) ||
            processed.any (fun e => e.id == d))) })

/-- A subtask as seen by the identity-resolution utilities. -/
structure Subtask where
  id : Nat
  title : String
  deriving DecidableEq

/-- A top-level task as seen by the identity-resolution utilities. -/
structure LinkTask where
  id : Nat
  title : String
  subtasks : List Subtask := []
  deriving DecidableEq

/-- A JavaScript value flowing through the identifier utilities: a
number, a string, or `null`. -/
inductive JsVal where
  | num (n : Int)
  | str (s : String)
  | null
  deriving DecidableEq

/-- `typeof id === 'string' && id.includes('.')`. -/
def isStringWithDot : JsVal → Bool
  | .str s => s.data.contains '.'
  | _ => false

/-- `s.startsWith(p)` on modelled strings. -/
def strStartsWith (s p : String) : Bool := startsWithList p.data s.data

/-- `s.endsWith(p)` on modelled strings. -/
def strEndsWith (s p : String) : Bool :=
  startsWithList p.data.reverse s.data.reverse

/-- `typeof id === 'string' && id.startsWith('[[') && id.endsWith(']]')`. -/
def isObsidianLinkVal : JsVal → Bool
  | .str s => strStartsWith s "[[" && strEndsWith s "]]"
  | _ => false

/-- `formatTaskId(id)` as extended in the fork-plan document
(modificacoes-sistema-dependencias-obsidian.md lines 93-105): a dotted
string and a bracketed link are returned untouched, a number is
stringified, anything else is returned as-is. -/
def formatTaskId (id : JsVal) : JsVal :=
  if isStringWithDot id then id
  else if isObsidianLinkVal id then id
  else
    match id with
    | .num n => .str (toString n)
    | _ => id

/-- `identifier.slice(2, -2).trim()`: the inner text of a bracketed
cross-reference token. -/
def sliceInner (s : String) : List Char :=
  jsTrim ((s.data.drop 2).dropLast.dropLast)

/-- The dotted `${parentId}.${subtask.id}` form. -/
def dottedId (p s : Nat) : String := toString p ++ "." ++ toString s

/-- First parent whose subtask list contains a subtask satisfying `p`,
paired with that first subtask (iteration order of the source loops). -/
def findSubtask (p : Subtask → Bool) : List LinkTask → Option (Nat × Nat)
  | [] => none
  | t :: ts =>
    match t.subtasks.find? p with
    | some st => some (t.id, st.id)
    | none => findSubtask p ts

/-- The `mode === 'to-id'` branch of `resolveObsidianLink`
(modificacoes-sistema-dependencias-obsidian.md lines 181-238): strip the
brackets and trim; empty inner text resolves to `null`; otherwise try
exact case-insensitive top-level title match, exact subtask match
(dotted), substring top-level match, substring subtask match, in that
order, first match winning; a link matching nothing — and any non-link
identifier — is returned unchanged. -/
def resolveObsidianLinkToId (identifier : JsVal) (tasks : List LinkTask) :
    JsVal :=
  match identifier with
  | .str s =>
    if strStartsWith s "[[" && strEndsWith s "]]" then
      let linkText := sliceInner s
      if linkText.isEmpty then .null
      else
        let lt := toLowerList linkText
        match tasks.find? (fun t =>
            decide (t.title ≠ "") && decide (toLowerList t.title.data = lt)) with
        | some t => .num t.id
        | none =>
          match findSubtask (fun st =>
              decide (st.title ≠ "") &&
                decide (toLowerList st.title.data = lt)) tasks with
          | some ps => .str (dottedId ps.1 ps.2)
          | none =>
            match tasks.find? (fun t =>
                decide (t.title ≠ "") &&
                  containsSub lt (toLowerList t.title.data)) with
            | some t => .num t.id
            | none =>
              match findSubtask (fun st =>
                  decide (st.title ≠ "") &&
                    containsSub lt (toLowerList st.title.data)) tasks with
              | some ps => .str (dottedId ps.1 ps.2)
              | none => identifier
    else identifier
  | _ => identifier

/-- The resolution procedure as the specification words it (§4.3
`resolveToId`): strip the bracket markers, trim whitespace, fail to
`null` on an empty inner string, then attempt the four matchers in order
via an option chain, returning the identifier unchanged when none
matches.  (The spec does not mention the source's redundant truthiness
guard on titles.) -/
def resolveToIdSpec (identifier : JsVal) (tasks : List LinkTask) : JsVal :=
  match identifier with
  | .str s =>
    if strStartsWith s "[[" && strEndsWith s "]]" then
      let inner := sliceInner s
      if inner = [] then .null
      else
        let lt := toLowerList inner
        let exactTop := (tasks.find? (fun t =>
          decide (toLowerList t.title.data = lt))).map (fun t => JsVal.num t.id)
        let exactSub := (findSubtask (fun st =>
          decide (toLowerList st.title.data = lt)) tasks).map
            (fun ps => JsVal.str (dottedId ps.1 ps.2))
        let partialTop := (tasks.find? (fun t =>
          containsSub lt (toLowerList t.title.data))).map
            (fun t => JsVal.num t.id)
        let partialSub := (findSubtask (fun st =>
          containsSub lt (toLowerList st.title.data)) tasks).map
            (fun ps => JsVal.str (dottedId ps.1 ps.2))
        (exactTop <|> exactSub <|> partialTop <|> partialSub).getD identifier
    else identifier
  | _ => identifier

end ObsidianSync

namespace ObsidianSync

/-- C2: the conflict predicate holds iff the canonical record has a prior
`lastSyncAt`, the incoming record's effective modification evidence is
strictly newer, and at least one of title, status, description differs;
and a canonical record with no prior `lastSyncAt` never conflicts. -/
theorem hasConflict_characterization (a b : Task) :
    (hasConflict a b = true ↔
      ∃ s, a.lastSyncAt = some s ∧ s < effectiveEvidence b ∧
        (a.title ≠ b.title ∨ a.status ≠ b.status ∨
          a.description ≠ b.description)) ∧
    hasConflict { a with lastSyncAt := none } b = false := by
  constructor
  · unfold hasConflict
    cases h : a.lastSyncAt with
    | none =>
      simp
    | some s =>
      simp only [Bool.and_eq_true, decide_eq_true_eq, bne_iff_ne,
        Bool.or_eq_true]
      constructor
      · rintro ⟨hlt, hdiff⟩
        exact ⟨s, rfl, hlt, or_assoc.mp hdiff⟩
      · rintro ⟨s', hs', hlt, hdiff⟩
        cases Option.some.inj hs'
        exact ⟨hlt, or_assoc.mpr hdiff⟩
  · rfl

theorem formatTaskId_str (s : String) : formatTaskId (.str s) = .str s := by
  unfold formatTaskId
  split
  · rfl
  · split
    · rfl
    · rfl

/-- C8: identifier formatting is idempotent on every input: strings of
any shape are returned unchanged by `formatTaskId`, and a number is
stringified once and then fixed. -/
theorem formatTaskId_idempotent (x : JsVal) :
    formatTaskId (formatTaskId x) = formatTaskId x := by
  cases x with
  | num n =>
    have h : formatTaskId (.num n) = .str (toString n) := rfl
    rw [h, formatTaskId_str]
  | str s => rw [formatTaskId_str, formatTaskId_str]
  | null => rfl

/-- C1 counterexample: `syncTasksFromObsidian` matches an incoming
record to a store task that agrees only on `title` (the `sourceFile`s
differ), so the record is updated rather than created — refuting the
claim that the match key is the conjunction `sourceFile` + `title` in
every from-text pass. -/
theorem naturalKey_counterexample :
    ("a.md" : String) ≠ ("b.md" : String) ∧
    (syncTasksFromObsidian
        [{ title := "A", status := "pending", description := "A",
            sourceFile := "b.md" }]
        [{ id := 1, title := "A", sourceFile := "a.md",
            syncStatus := "synced" }] false 0).1.created = 0 ∧
    (syncTasksFromObsidian
        [{ title := "A", status := "pending", description := "A",
            sourceFile := "b.md" }]
        [{ id := 1, title := "A", sourceFile := "a.md",
            syncStatus := "synced" }] false 0).1.updated = 1 := by
  decide

/-- C1 amended: the two from-text loops use different match keys.  In
`syncWithObsidian` an incoming record is created as new exactly when no
store task agrees on both `sourceFile` and `title` (the natural key); in
`syncTasksFromObsidian` it is created exactly when no store task agrees
on the title or on a truthy common `sourceFile`. -/
theorem matchKeys_amended (st : SyncRes) (v : Task) (now : Int)
    (dryRun : Bool) :
    ((syncStep matchBidir newIdBidir false now st v).created =
        st.created + 1 ↔
      ¬ ∃ t ∈ st.tasks, t.sourceFile = v.sourceFile ∧ t.title = v.title) ∧
    ((syncStep matchFromText newIdFromText dryRun now st v).created =
        st.created + 1 ↔
      ¬ ∃ t ∈ st.tasks, t.title = v.title ∨
        (t.sourceFile ≠ "" ∧ v.sourceFile ≠ "" ∧
          t.sourceFile = v.sourceFile)) := by
  constructor
  · cases h : st.tasks.find? (fun t => matchBidir t v) with
    | some t =>
      have hmem := List.mem_of_find?_eq_some h
      have hp := List.find?_some h
      simp only [matchBidir, Bool.and_eq_true, beq_iff_eq] at hp
      unfold syncStep
      rw [h]
      dsimp only
      constructor
      · intro hc
        exfalso
        revert hc
        split <;> simp
      · intro hc
        exact absurd ⟨t, hmem, hp.1, hp.2⟩ hc
    | none =>
      unfold syncStep
      rw [h]
      dsimp only
      rw [List.find?_eq_none] at h
      simp only [Bool.not_eq_true] at h
      constructor
      · rintro - ⟨t, hmem, h1, h2⟩
        have := h t hmem
        simp [matchBidir, h1, h2] at this
      · intro
        simp
  · cases h : st.tasks.find? (fun t => matchFromText t v) with
    | some t =>
      have hmem := List.mem_of_find?_eq_some h
      have hp := List.find?_some h
      simp only [matchFromText, Bool.or_eq_true, Bool.and_eq_true,
        beq_iff_eq, bne_iff_ne] at hp
      unfold syncStep
      rw [h]
      dsimp only
      constructor
      · intro hc
        exfalso
        revert hc
        split <;> simp
      · intro hc
        refine absurd ⟨t, hmem, ?_⟩ hc
        rcases hp with h1 | ⟨⟨h2, h3⟩, h4⟩
        · exact Or.inl h1
        · exact Or.inr ⟨h2, h3, h4⟩
    | none =>
      unfold syncStep
      rw [h]
      dsimp only
      rw [List.find?_eq_none] at h
      simp only [Bool.not_eq_true] at h
      constructor
      · rintro - ⟨t, hmem, hkey⟩
        have := h t hmem
        rcases hkey with h1 | ⟨h2, h3, h4⟩
        · simp [matchFromText, h1] at this
        · simp [matchFromText, h2, h3, h4] at this
      · intro
        cases dryRun <;> simp

/-- C4 counterexample: the from-obsidian branch of `syncWithObsidian`
calls `writeJSON` even for a pass that created and updated nothing (here
the vault extraction is empty), refuting the claim that every from-text
pass writes only when something was created or updated. -/
theorem writeGating_counterexample :
    (syncWithObsidianFromBranch [] [] 0).2 = true ∧
    (syncWithObsidianFromBranch [] [] 0).1.created = 0 ∧
    (syncWithObsidianFromBranch [] [] 0).1.updated = 0 := by
  decide

/-- C4 amended: `syncTasksFromObsidian` writes the store exactly when it
is not a dry run and something was created or updated, and whenever it
writes nothing the persisted document is the untouched previous one; but
the from-obsidian branch of `syncWithObsidian` calls the store write
unconditionally. -/
theorem writeGating_amended (vaultTasks existing : List Task)
    (dryRun : Bool) (now : Int) :
    ((syncTasksFromObsidian vaultTasks existing dryRun now).2 = true ↔
      dryRun = false ∧
        (0 < (syncTasksFromObsidian vaultTasks existing dryRun now).1.created ∨
          0 < (syncTasksFromObsidian vaultTasks existing dryRun now).1.updated)) ∧
    (persistedAfterFromText vaultTasks existing dryRun now = existing ∨
      (syncTasksFromObsidian vaultTasks existing dryRun now).2 = true) ∧
    (syncWithObsidianFromBranch vaultTasks existing now).2 = true := by
  refine ⟨?_, ?_, rfl⟩
  · unfold syncTasksFromObsidian
    split
    · simp
    · simp only [Bool.and_eq_true, Bool.not_eq_true', Bool.or_eq_true,
        decide_eq_true_eq]
  · unfold persistedAfterFromText
    dsimp only
    split
    · exact Or.inr (by assumption)
    · exact Or.inl rfl

/-- C9 counterexample: `syncTasksToObsidian` writes a markdown file and
increments the `created` counter for a task whose `sourceFile` is empty,
refuting the claim that every to-text pass skips such records. -/
theorem toTextSkip_counterexample :
    (syncTasksToObsidian "v" []
        [{ id := 1, title := "a", sourceFile := "" }] false).created = 1 ∧
    (syncTasksToObsidian "v" []
        [{ id := 1, title := "a", sourceFile := "" }] false).writes =
      ["v/Tasks/task-001-a.md"] := by
  decide

theorem toBranchFold_filter (l : List Task) :
    ∀ acc, l.foldl toBranchStep acc =
      (l.filter (fun t => t.sourceFile != "")).foldl toBranchStep acc := by
  induction l with
  | nil => intro acc; rfl
  | cons t l ih =>
    intro acc
    cases h : (t.sourceFile != "") with
    | true =>
      simp only [List.foldl_cons, List.filter_cons, h, if_true]
      exact ih (toBranchStep acc t)
    | false =>
      have hskip : toBranchStep acc t = acc := by
        unfold toBranchStep
        rw [h]
        rfl
      simp only [List.foldl_cons, List.filter_cons, h, hskip]
      exact ih acc

theorem syncTasksToObsidianStep_counts (vp : String) (ex : List String)
    (acc : ToRes) (t : Task) :
    (syncTasksToObsidianStep vp ex false acc t).created +
        (syncTasksToObsidianStep vp ex false acc t).updated =
      acc.created + acc.updated + 1 ∧
    (syncTasksToObsidianStep vp ex false acc t).writes.length =
      acc.writes.length + 1 := by
  unfold syncTasksToObsidianStep
  dsimp only
  rw [if_neg (by simp)]
  split <;> simp <;> omega

/-- C9 amended: only `syncWithObsidian`'s to-obsidian branch skips
records with an empty `sourceFile` (its result is unchanged by removing
them up front, so they touch no counter and produce no write);
`syncTasksToObsidian` instead performs exactly one write and one counter
increment per record, whatever its `sourceFile`. -/
theorem toTextSkip_amended :
    (∀ tasks : List Task,
      syncWithObsidianToBranch tasks =
        syncWithObsidianToBranch (tasks.filter (fun t => t.sourceFile != ""))) ∧
    ∀ (vp : String) (ex : List String) (tasks : List Task),
      (syncTasksToObsidian vp ex tasks false).created +
          (syncTasksToObsidian vp ex tasks false).updated = tasks.length ∧
      (syncTasksToObsidian vp ex tasks false).writes.length = tasks.length := by
  constructor
  · intro tasks
    unfold syncWithObsidianToBranch
    exact toBranchFold_filter tasks (0, [])
  · intro vp ex tasks
    unfold syncTasksToObsidian
    have key : ∀ (l : List Task) (acc : ToRes),
        ((l.foldl (syncTasksToObsidianStep vp ex false) acc).created +
          (l.foldl (syncTasksToObsidianStep vp ex false) acc).updated =
            acc.created + acc.updated + l.length) ∧
        (l.foldl (syncTasksToObsidianStep vp ex false) acc).writes.length =
          acc.writes.length + l.length := by
      intro l
      induction l with
      | nil => intro acc; simp
      | cons t l ih =>
        intro acc
        simp only [List.foldl_cons, List.length_cons]
        obtain ⟨ih1, ih2⟩ := ih (syncTasksToObsidianStep vp ex false acc t)
        obtain ⟨hs1, hs2⟩ := syncTasksToObsidianStep_counts vp ex acc t
        constructor
        · omega
        · omega
    obtain ⟨h1, h2⟩ := key tasks {}
    constructor
    · simpa using h1
    · simpa using h2

/-- C5: after the id and dependency remapping of
`parse-obsidian-notes.js`, every dependency left in a new task's list
refers to an id that exists — among the pre-existing tasks or the new
batch — and is strictly below the dependent task's own id. -/
theorem remapDependencies_invariant (existingTasks : List Task)
    (nextId : Nat) (drafts : List DraftTask) :
    ∀ t ∈ remapDependencies existingTasks nextId drafts,
      ∀ d ∈ t.dependencies,
        d < t.id ∧ ((∃ e ∈ existingTasks, e.id = d) ∨
          ∃ t2 ∈ remapDependencies existingTasks nextId drafts, t2.id = d) := by
  intro t ht d hd
  simp only [remapDependencies] at ht
  rcases List.mem_map.mp ht with ⟨t0, ht0, rfl⟩
  dsimp only at hd
  rcases List.mem_filter.mp hd with ⟨-, hcond⟩
  simp only [Bool.and_eq_true, decide_eq_true_eq, Bool.or_eq_true,
    List.any_eq_true, beq_iff_eq] at hcond
  obtain ⟨hlt, hex⟩ := hcond
  refine ⟨hlt, ?_⟩
  rcases hex with ⟨e, he, hid⟩ | ⟨e, he, hid⟩
  · exact Or.inl ⟨e, he, hid⟩
  · refine Or.inr ?_
    simp only [remapDependencies]
    exact ⟨_, List.mem_map_of_mem _ he, hid⟩

theorem remapDependencies_invariant_witness :
    (⟨2, [1]⟩ : RemappedTask) ∈ remapDependencies [] 1 [⟨10, []⟩, ⟨20, [10]⟩] ∧
    ((1 : Nat) < 2 ∧ ((∃ e ∈ ([] : List Task), e.id = 1) ∨
      ∃ t2 ∈ remapDependencies [] 1 [⟨10, []⟩, ⟨20, [10]⟩], t2.id = 1)) := by
  refine ⟨by decide, ?_⟩
  exact remapDependencies_invariant [] 1 [⟨10, []⟩, ⟨20, [10]⟩]
    ⟨2, [1]⟩ (by decide) 1 (by decide)

theorem and_guard_of_imp {p q : Bool} (h : q = true → p = true) :
    (p && q) = q := by
  cases q
  · simp
  · simp [h rfl]

theorem title_ne_of_toLower_eq {t : String} {lt : List Char}
    (hlt : lt ≠ []) (h : toLowerList t.data = lt) :
    decide (t ≠ "") = true := by
  rw [decide_eq_true_eq]
  intro he
  apply hlt
  rw [← h, he]
  rfl

theorem title_ne_of_containsSub {t : String} {lt : List Char}
    (hlt : lt ≠ []) (h : containsSub lt (toLowerList t.data) = true) :
    decide (t ≠ "") = true := by
  rw [decide_eq_true_eq]
  intro he
  subst he
  cases lt with
  | nil => exact hlt rfl
  | cons c cs => simp [containsSub, toLowerList, List.isEmpty] at h

/-- C6: the `to-id` branch of `resolveObsidianLink` coincides with the
specification's resolution procedure: strip and trim the token, report
not-found (`null`) on an empty inner string, otherwise return the first
hit among — in order — exact top-level match, exact subtask match
(dotted), substring top-level match, substring subtask match, all
case-insensitive, and return the identifier unchanged when nothing
matches or it is not a bracketed string. -/
theorem resolveObsidianLink_toId_spec (identifier : JsVal)
    (tasks : List LinkTask) :
    resolveObsidianLinkToId identifier tasks = resolveToIdSpec identifier tasks := by
  cases identifier with
  | num n => rfl
  | null => rfl
  | str s =>
    simp only [resolveObsidianLinkToId, resolveToIdSpec]
    by_cases hb : (strStartsWith s "[[" && strEndsWith s "]]") = true
    · rw [if_pos hb, if_pos hb]
      by_cases he : sliceInner s = []
      · rw [if_pos he, if_pos (by simp [he, List.isEmpty])]
      · rw [if_neg he, if_neg (by simp [List.isEmpty_iff, he])]
        have hlt : toLowerList (sliceInner s) ≠ [] := by
          simpa [toLowerList] using he
        have g1 : (fun t : LinkTask => decide (t.title ≠ "") &&
            decide (toLowerList t.title.data = toLowerList (sliceInner s))) =
            (fun t : LinkTask =>
              decide (toLowerList t.title.data = toLowerList (sliceInner s))) := by
          funext t
          exact and_guard_of_imp (fun hq =>
            title_ne_of_toLower_eq hlt (of_decide_eq_true hq))
        have g2 : (fun st : Subtask => decide (st.title ≠ "") &&
            decide (toLowerList st.title.data = toLowerList (sliceInner s))) =
            (fun st : Subtask =>
              decide (toLowerList st.title.data = toLowerList (sliceInner s))) := by
          funext st
          exact and_guard_of_imp (fun hq =>
            title_ne_of_toLower_eq hlt (of_decide_eq_true hq))
        have g3 : (fun t : LinkTask => decide (t.title ≠ "") &&
            containsSub (toLowerList (sliceInner s)) (toLowerList t.title.data)) =
            (fun t : LinkTask =>
              containsSub (toLowerList (sliceInner s)) (toLowerList t.title.data)) := by
          funext t
          exact and_guard_of_imp (title_ne_of_containsSub hlt)
        have g4 : (fun st : Subtask => decide (st.title ≠ "") &&
            containsSub (toLowerList (sliceInner s)) (toLowerList st.title.data)) =
            (fun st : Subtask =>
              containsSub (toLowerList (sliceInner s)) (toLowerList st.title.data)) := by
          funext st
          exact and_guard_of_imp (title_ne_of_containsSub hlt)
        rw [g1, g2, g3, g4]
        cases f1 : tasks.find? (fun t =>
            decide (toLowerList t.title.data = toLowerList (sliceInner s))) with
        | some t => rfl
        | none =>
          cases f2 : findSubtask (fun st =>
              decide (toLowerList st.title.data = toLowerList (sliceInner s)))
              tasks with
          | some ps => rfl
          | none =>
            cases f3 : tasks.find? (fun t =>
                containsSub (toLowerList (sliceInner s))
                  (toLowerList t.title.data)) with
            | some t => rfl
            | none =>
              cases f4 : findSubtask (fun st =>
                  containsSub (toLowerList (sliceInner s))
                    (toLowerList st.title.data)) tasks with
              | some ps => rfl
              | none => rfl
    · rw [if_neg hb, if_neg hb]

theorem foldrMax_init (l : List Nat) (b : Nat) :
    l.foldr Nat.max b = Nat.max (l.foldr Nat.max 0) b := by
  induction l with
  | nil => simp
  | cons a l ih => simp [ih, Nat.max_assoc]

theorem foldrMax_append (a b : List Nat) :
    (a ++ b).foldr Nat.max 0 =
      Nat.max (a.foldr Nat.max 0) (b.foldr Nat.max 0) := by
  rw [List.foldr_append, foldrMax_init]

theorem foldrMax_range' (M : Nat) :
    ∀ k, Nat.max M ((List.range' (M + 1) k).foldr Nat.max 0) = M + k := by
  intro k
  induction k with
  | zero => simp
  | succ k ih =>
    rw [List.range'_concat, foldrMax_append]
    simp only [List.foldr_cons, List.foldr_nil, Nat.one_mul, Nat.max_zero]
    set F := (List.range' (M + 1) k).foldr Nat.max 0 with hF
    have h1 : F ≤ M + k := by
      calc F ≤ Nat.max M F := Nat.le_max_right M F
      _ = M + k := ih
    have h2 : Nat.max F (M + 1 + k) = M + 1 + k :=
      Nat.max_eq_right (by omega)
    have h3 : Nat.max M (M + 1 + k) = M + 1 + k :=
      Nat.max_eq_right (by omega)
    rw [h2, h3]
    omega

theorem replaceFirst_map_id (p : Task → Bool) (f : Task → Task)
    (hf : ∀ t, (f t).id = t.id) :
    ∀ l : List Task, (replaceFirst p f l).map (·.id) = l.map (·.id) := by
  intro l
  induction l with
  | nil => rfl
  | cons t ts ih =>
    unfold replaceFirst
    split
    · simp [hf]
    · simp only [List.map_cons, ih]

theorem newIdFromText_eq (l : List Task) : newIdFromText l = maxIds l + 1 := by
  cases l with
  | nil => rfl
  | cons t ts => simp [newIdFromText]

theorem syncFold_ids (mp : Task → Task → Bool) (nid : List Task → Nat)
    (hnid : ∀ l, nid l = maxIds l + 1) (now : Int) :
    ∀ (vs : List Task) (st : SyncRes) (A : List Nat) (M : Nat),
      st.tasks.map (·.id) = A ++ List.range' (M + 1) st.created →
      A.foldr Nat.max 0 = M →
      (vs.foldl (syncStep mp nid false now) st).tasks.map (·.id) =
        A ++ List.range' (M + 1)
          (vs.foldl (syncStep mp nid false now) st).created := by
  intro vs
  induction vs with
  | nil =>
    intro st A M hA hM
    exact hA
  | cons v vs ih =>
    intro st A M hA hM
    rw [List.foldl_cons]
    apply ih _ A M ?_ hM
    unfold syncStep
    cases h : st.tasks.find? (fun t => mp t v) with
    | some t =>
      dsimp only
      split
      · simpa [replaceFirst_map_id _ markConflict (fun t => rfl)] using hA
      · simpa [replaceFirst_map_id _ (fun t => mergeTask t v now)
          (fun t => rfl)] using hA
    | none =>
      dsimp only
      rw [if_neg (by simp)]
      have hmax : maxIds st.tasks = M + st.created := by
        unfold maxIds
        rw [hA, foldrMax_append, hM, foldrMax_range']
      simp only [List.map_append, List.map_cons, List.map_nil]
      rw [hA, hnid, hmax, List.append_assoc, List.range'_concat]
      have harith : M + 1 + 1 * st.created = M + st.created + 1 := by omega
      rw [harith]

/-- C3: in a non-dry-run from-text pass (both `syncWithObsidian`'s
from-obsidian branch and `syncTasksFromObsidian`), the tasks created are
appended in order with the consecutive ids M+1, M+2, ..., M+N where M is
the maximum pre-existing id (0 for an empty partition) and N the pass's
`created` count — no gaps, no repeats, each id recomputed as
(max id so far) + 1 after every insertion. -/
theorem fromText_id_monotonic (vaultTasks tasks : List Task) (now : Int) :
    ((syncWithObsidianFromBranch vaultTasks tasks now).1.tasks.map (·.id) =
      tasks.map (·.id) ++ List.range' (maxIds tasks + 1)
        (syncWithObsidianFromBranch vaultTasks tasks now).1.created) ∧
    ((syncTasksFromObsidian vaultTasks tasks false now).1.tasks.map (·.id) =
      tasks.map (·.id) ++ List.range' (maxIds tasks + 1)
        (syncTasksFromObsidian vaultTasks tasks false now).1.created) := by
  constructor
  · unfold syncWithObsidianFromBranch
    exact syncFold_ids matchBidir newIdBidir (fun l => rfl) now vaultTasks
      { tasks := tasks } (tasks.map (fun t : Task => t.id)) (maxIds tasks)
      (by simp) rfl
  · unfold syncTasksFromObsidian
    split
    · simp
    · dsimp only
      exact syncFold_ids matchFromText newIdFromText newIdFromText_eq now
        vaultTasks { tasks := tasks } (tasks.map (fun t : Task => t.id))
        (maxIds tasks) (by simp) rfl

theorem extract_no_timestamps (files : List (String × String)) :
    ∀ v ∈ extractTasksFromVault files,
      v.lastModified = none ∧ v.lastSyncAt = none := by
  intro v hv
  unfold extractTasksFromVault at hv
  rcases List.mem_flatten.mp hv with ⟨l, hl, hvl⟩
  rcases List.mem_map.mp hl with ⟨fc, -, rfl⟩
  rcases List.mem_map.mp hvl with ⟨line, -, rfl⟩
  exact ⟨rfl, rfl⟩

theorem effectiveEvidence_zero {v : Task} (h1 : v.lastModified = none)
    (h2 : v.lastSyncAt = none) : effectiveEvidence v = 0 := by
  unfold effectiveEvidence
  rw [h1, h2]

theorem hasConflict_false_of_stamps {t v : Task}
    (hv : effectiveEvidence v = 0) (ht : 0 ≤ t.lastSyncAt.getD 0) :
    hasConflict t v = false := by
  unfold hasConflict
  cases h : t.lastSyncAt with
  | none => rfl
  | some s =>
    rw [h] at ht
    simp only [Option.getD_some] at ht
    rw [hv]
    simp only [Bool.and_eq_false_iff, decide_eq_false_iff_not]
    left
    omega

theorem mem_replaceFirst (p : Task → Bool) (f : Task → Task) :
    ∀ (l : List Task) (x : Task), x ∈ replaceFirst p f l →
      x ∈ l ∨ ∃ y ∈ l, x = f y := by
  intro l
  induction l with
  | nil => intro x hx; simp [replaceFirst] at hx
  | cons t ts ih =>
    intro x hx
    unfold replaceFirst at hx
    by_cases hp : p t = true
    · rw [if_pos hp] at hx
      rcases List.mem_cons.mp hx with h | h
      · exact Or.inr ⟨t, List.mem_cons_self t ts, h⟩
      · exact Or.inl (List.mem_cons_of_mem t h)
    · rw [if_neg hp] at hx
      rcases List.mem_cons.mp hx with h | h
      · exact Or.inl (h ▸ List.mem_cons_self t ts)
      · rcases ih x h with h' | ⟨y, hy, hxy⟩
        · exact Or.inl (List.mem_cons_of_mem t h')
        · exact Or.inr ⟨y, List.mem_cons_of_mem t hy, hxy⟩

theorem syncFold_no_conflict (mp : Task → Task → Bool)
    (nid : List Task → Nat) (dryRun : Bool) (now : Int) (hnow : 0 ≤ now) :
    ∀ (vs : List Task), (∀ v ∈ vs, effectiveEvidence v = 0) →
      ∀ (st : SyncRes),
        (∀ t ∈ st.tasks, t.syncStatus ≠ "conflict" ∧
          0 ≤ t.lastSyncAt.getD 0) →
        (vs.foldl (syncStep mp nid dryRun now) st).conflicts = st.conflicts ∧
        ∀ t ∈ (vs.foldl (syncStep mp nid dryRun now) st).tasks,
          t.syncStatus ≠ "conflict" ∧ 0 ≤ t.lastSyncAt.getD 0 := by
  intro vs
  induction vs with
  | nil =>
    intro _ st hst
    exact ⟨rfl, hst⟩
  | cons v vs ih =>
    intro hvs st hst
    rw [List.foldl_cons]
    have hv0 : effectiveEvidence v = 0 := hvs v (List.mem_cons_self v vs)
    have hstep : (syncStep mp nid dryRun now st v).conflicts = st.conflicts ∧
        ∀ t ∈ (syncStep mp nid dryRun now st v).tasks,
          t.syncStatus ≠ "conflict" ∧ 0 ≤ t.lastSyncAt.getD 0 := by
      unfold syncStep
      cases h : st.tasks.find? (fun t => mp t v) with
      | some t =>
        have hmem := List.mem_of_find?_eq_some h
        have hconf : hasConflict t v = false :=
          hasConflict_false_of_stamps hv0 (hst t hmem).2
        dsimp only
        rw [hconf]
        rw [if_neg (by simp)]
        refine ⟨rfl, ?_⟩
        intro x hx
        dsimp only at hx
        by_cases hd : dryRun = true
        · rw [if_pos hd] at hx
          exact hst x hx
        · rw [if_neg hd] at hx
          rcases mem_replaceFirst _ _ _ _ hx with h' | ⟨y, -, rfl⟩
          · exact hst x h'
          · exact ⟨by simp [mergeTask], by simp [mergeTask, hnow]⟩
      | none =>
        dsimp only
        by_cases hd : dryRun = true
        · rw [if_pos hd]
          exact ⟨rfl, hst⟩
        · rw [if_neg hd]
          refine ⟨rfl, ?_⟩
          intro x hx
          dsimp only at hx
          rcases List.mem_append.mp hx with h' | h'
          · exact hst x h'
          · rcases List.mem_singleton.mp h' with rfl
            exact ⟨by simp, by simp [hnow]⟩
    obtain ⟨s1, s2⟩ := hstep
    obtain ⟨i1, i2⟩ := ih (fun w hw => hvs w (List.mem_cons_of_mem v hw)) _ s2
    exact ⟨by rw [i1, s1], i2⟩

/-- C10: vault-extracted records carry neither `lastModified` nor
`lastSyncAt`, so their effective modification evidence is the epoch;
hence a from-text pass over the extractor's output, against a store
whose tasks carry only valid post-epoch `lastSyncAt` stamps and no
pre-existing conflict marks, never increments the conflict counter and
never sets any task's `syncStatus` to conflict. -/
theorem extractor_never_conflicts (files : List (String × String))
    (existing : List Task) (dryRun : Bool) (now : Int) (hnow : 0 ≤ now)
    (hstore : ∀ t ∈ existing, t.syncStatus ≠ "conflict" ∧
      0 ≤ t.lastSyncAt.getD 0) :
    (∀ v ∈ extractTasksFromVault files,
      v.lastModified = none ∧ v.lastSyncAt = none) ∧
    (syncTasksFromObsidian (extractTasksFromVault files) existing
      dryRun now).1.conflicts = 0 ∧
    ∀ t ∈ (syncTasksFromObsidian (extractTasksFromVault files) existing
      dryRun now).1.tasks, t.syncStatus ≠ "conflict" := by
  refine ⟨extract_no_timestamps files, ?_⟩
  have hvs : ∀ v ∈ extractTasksFromVault files, effectiveEvidence v = 0 :=
    fun v hv => effectiveEvidence_zero (extract_no_timestamps files v hv).1
      (extract_no_timestamps files v hv).2
  unfold syncTasksFromObsidian
  split
  · exact ⟨rfl, fun t ht => (hstore t ht).1⟩
  · dsimp only
    obtain ⟨h1, h2⟩ := syncFold_no_conflict matchFromText newIdFromText
      dryRun now hnow (extractTasksFromVault files) hvs
      { tasks := existing } hstore
    exact ⟨h1, fun t ht => (h2 t ht).1⟩

theorem extractor_never_conflicts_witness :
    (∀ v ∈ extractTasksFromVault [("f.md", "- [x] T")],
      v.lastModified = none ∧ v.lastSyncAt = none) ∧
    (syncTasksFromObsidian (extractTasksFromVault [("f.md", "- [x] T")])
      [{ id := 1, title := "T", sourceFile := "f.md", lastSyncAt := some 5,
          syncStatus := "synced" }] false 7).1.conflicts = 0 ∧
    ∀ t ∈ (syncTasksFromObsidian (extractTasksFromVault [("f.md", "- [x] T")])
      [{ id := 1, title := "T", sourceFile := "f.md", lastSyncAt := some 5,
          syncStatus := "synced" }] false 7).1.tasks,
      t.syncStatus ≠ "conflict" :=
  extractor_never_conflicts [("f.md", "- [x] T")]
    [{ id := 1, title := "T", sourceFile := "f.md", lastSyncAt := some 5,
        syncStatus := "synced" }] false 7 (by decide) (by decide)

theorem consHead_ne_nil (c : Char) (L : List (List Char)) :
    consHead c L ≠ [] := by
  cases L <;> simp [consHead]

theorem splitOnNl_ne_nil (l : List Char) : splitOnNl l ≠ [] := by
  induction l with
  | nil => simp [splitOnNl]
  | cons c cs ih =>
    unfold splitOnNl
    split
    · simp
    · exact consHead_ne_nil c (splitOnNl cs)

theorem mem_splitOnNl_no_nl :
    ∀ (l : List Char) (p : List Char), p ∈ splitOnNl l → '\n' ∉ p := by
  intro l
  induction l with
  | nil =>
    intro p hp
    simp [splitOnNl] at hp
    simp [hp]
  | cons c cs ih =>
    intro p hp
    unfold splitOnNl at hp
    by_cases hc : c = '\n'
    · rw [if_pos hc] at hp
      rcases List.mem_cons.mp hp with h | h
      · simp [h]
      · exact ih p h
    · rw [if_neg hc] at hp
      unfold consHead at hp
      cases hsc : splitOnNl cs with
      | nil => exact absurd hsc (splitOnNl_ne_nil cs)
      | cons h t =>
        rw [hsc] at hp
        rcases List.mem_cons.mp hp with h' | h'
        · subst h'
          intro hmem
          rcases List.mem_cons.mp hmem with h'' | h''
          · exact hc h''.symm
          · exact ih h (hsc ▸ List.mem_cons_self h t) h''
        · exact ih p (hsc ▸ List.mem_cons_of_mem h h')

theorem joinNl_consHead (c : Char) (L : List (List Char)) (hL : L ≠ []) :
    joinNl (consHead c L) = c :: joinNl L := by
  cases L with
  | nil => exact absurd rfl hL
  | cons h t =>
    cases t with
    | nil => rfl
    | cons t2 ts => rfl

theorem joinNl_splitOnNl (l : List Char) : joinNl (splitOnNl l) = l := by
  induction l with
  | nil => rfl
  | cons c cs ih =>
    unfold splitOnNl
    by_cases hc : c = '\n'
    · rw [if_pos hc]
      cases hsc : splitOnNl cs with
      | nil => exact absurd hsc (splitOnNl_ne_nil cs)
      | cons h t =>
        have : joinNl ([] :: h :: t) = '\n' :: joinNl (h :: t) := rfl
        rw [this, ← hsc, ih, hc]
    · rw [if_neg hc, joinNl_consHead c _ (splitOnNl_ne_nil cs), ih]

theorem consHead_append (c : Char) (L L' : List (List Char)) (hL : L ≠ []) :
    consHead c (L ++ L') = consHead c L ++ L' := by
  cases L with
  | nil => exact absurd rfl hL
  | cons h t => rfl

theorem splitOnNl_append_nl (a b : List Char) :
    splitOnNl (a ++ '\n' :: b) = splitOnNl a ++ splitOnNl b := by
  induction a with
  | nil => rfl
  | cons c a' ih =>
    show (if c = '\n' then [] :: splitOnNl (a' ++ '\n' :: b)
        else consHead c (splitOnNl (a' ++ '\n' :: b))) =
      (if c = '\n' then [] :: splitOnNl a'
        else consHead c (splitOnNl a')) ++ splitOnNl b
    by_cases hc : c = '\n'
    · rw [if_pos hc, if_pos hc, ih]
      rfl
    · rw [if_neg hc, if_neg hc, ih,
        consHead_append c _ _ (splitOnNl_ne_nil a')]

theorem splitOnNl_no_nl {l : List Char} (h : '\n' ∉ l) :
    splitOnNl l = [l] := by
  induction l with
  | nil => rfl
  | cons c cs ih =>
    have hc : c ≠ '\n' := fun he => h (he ▸ List.mem_cons_self c cs)
    have hcs : '\n' ∉ cs := fun hm => h (List.mem_cons_of_mem c hm)
    unfold splitOnNl
    rw [if_neg hc, ih hcs]
    rfl

theorem splitOnNl_joinNl (L : List (List Char)) (hL : L ≠ [])
    (h : ∀ p ∈ L, '\n' ∉ p) : splitOnNl (joinNl L) = L := by
  induction L with
  | nil => exact absurd rfl hL
  | cons l t ih =>
    cases t with
    | nil =>
      show splitOnNl l = [l]
      exact splitOnNl_no_nl (h l (List.mem_cons_self l []))
    | cons l2 ls =>
      show splitOnNl (l ++ '\n' :: joinNl (l2 :: ls)) = l :: l2 :: ls
      rw [splitOnNl_append_nl,
        splitOnNl_no_nl (h l (List.mem_cons_self l (l2 :: ls))),
        ih (by simp) (fun p hp => h p (List.mem_cons_of_mem l hp))]
      rfl

theorem expandDollar_no_dollar (m g p s : List Char) :
    ∀ {r : List Char}, '$' ∉ r → expandDollar m g p s r = r := by
  intro r
  induction r with
  | nil => intro; rfl
  | cons c rest ih =>
    intro h
    have hc : c ≠ '$' := fun he => h (he ▸ List.mem_cons_self c rest)
    have hrest : '$' ∉ rest := fun hm => h (List.mem_cons_of_mem c hm)
    unfold expandDollar
    rw [if_neg hc, ih hrest]

theorem findLineIdx_none (p : List Char → Bool) :
    ∀ L, findLineIdx p L = none → ∀ l ∈ L, p l = false := by
  intro L
  induction L with
  | nil => intro _ l hl; simp at hl
  | cons x xs ih =>
    intro h l hl
    unfold findLineIdx at h
    by_cases hp : p x = true
    · rw [if_pos hp] at h
      exact absurd h (by simp)
    · rw [if_neg hp] at h
      rcases List.mem_cons.mp hl with h' | h'
      · subst h'
        exact Bool.not_eq_true _ |>.mp hp
      · exact ih (by
          cases hfi : findLineIdx p xs
          · rfl
          · rw [hfi] at h; simp at h) l h'

theorem findLineIdx_set (p : List Char → Bool) :
    ∀ (L : List (List Char)) (i : Nat), findLineIdx p L = some i →
      ∀ r, p r = true → findLineIdx p (L.set i r) = some i := by
  intro L
  induction L with
  | nil => intro i h; simp [findLineIdx] at h
  | cons x xs ih =>
    intro i h r hr
    unfold findLineIdx at h
    by_cases hp : p x = true
    · rw [if_pos hp] at h
      have : i = 0 := by
        cases h
        rfl
      subst this
      show findLineIdx p (r :: xs) = some 0
      unfold findLineIdx
      rw [if_pos hr]
    · rw [if_neg hp] at h
      rcases Option.map_eq_some'.mp h with ⟨i', hi', rfl⟩
      show findLineIdx p (x :: xs.set i' r) = some (i' + 1)
      unfold findLineIdx
      rw [if_neg hp, ih i' hi' r hr]
      rfl

theorem findLineIdx_append_first (p : List Char → Bool) {x : List Char}
    (hx : p x = true) :
    ∀ (L : List (List Char)) (Y : List (List Char)),
      (∀ l ∈ L, p l = false) →
      findLineIdx p (L ++ x :: Y) = some L.length := by
  intro L
  induction L with
  | nil =>
    intro Y _
    show findLineIdx p (x :: Y) = some 0
    unfold findLineIdx
    rw [if_pos hx]
  | cons l ls ih =>
    intro Y hall
    show findLineIdx p (l :: (ls ++ x :: Y)) = some (ls.length + 1)
    unfold findLineIdx
    rw [if_neg (by simp [hall l (List.mem_cons_self l ls)]),
      ih Y (fun l' hl' => hall l' (List.mem_cons_of_mem l hl'))]
    rfl

theorem mem_set_subset {α : Type} :
    ∀ (L : List α) (i : Nat) (r x : α), x ∈ L.set i r → x = r ∨ x ∈ L := by
  intro L
  induction L with
  | nil => intro i r x hx; simp at hx
  | cons h t ih =>
    intro i r x hx
    cases i with
    | zero =>
      rcases List.mem_cons.mp hx with h' | h'
      · exact Or.inl h'
      · exact Or.inr (List.mem_cons_of_mem h h')
    | succ i' =>
      rcases List.mem_cons.mp hx with h' | h'
      · exact Or.inr (h' ▸ List.mem_cons_self h t)
      · rcases ih i' r x h' with h'' | h''
        · exact Or.inl h''
        · exact Or.inr (List.mem_cons_of_mem h h'')

theorem set_append_length {α : Type} (L : List α) (x : α) (Y : List α)
    (r : α) : (L ++ x :: Y).set L.length r = L ++ r :: Y := by
  induction L with
  | nil => rfl
  | cons h t ih => simp [List.set, ih]

/-- C7 counterexample: a title containing the JavaScript replacement
pattern `$&` breaks the idempotence of `updateTaskInMarkdown` — the
first application expands `$&` to the whole matched line, after which no
line matches and the second application appends a new checkbox line. -/
theorem updateIdempotence_counterexample :
    updateTaskInMarkdown (updateTaskInMarkdown "- [ ] $&"
        { title := "$&", status := "done" })
      { title := "$&", status := "done" } ≠
    updateTaskInMarkdown "- [ ] $&" { title := "$&", status := "done" } := by
  decide

/-- C7 amended: for every record whose title contains no dollar sign and
no line terminator, updating a markdown text twice with the record
yields exactly the text of updating it once, whether the first
application rewrote an existing matching checkbox line or appended a new
one. -/
theorem updateTaskInMarkdown_idempotent (content : String) (task : Task)
    (hd : '$' ∉ task.title.data) (hn : '\n' ∉ task.title.data)
    (_hr : '\r' ∉ task.title.data) :
    updateTaskInMarkdown (updateTaskInMarkdown content task) task =
      updateTaskInMarkdown content task := by
  have hrd : '$' ∉ checkboxReplacement task := by
    intro hmem
    unfold checkboxReplacement at hmem
    rcases List.mem_append.mp hmem with h | h
    · revert h
      split <;> decide
    · exact hd h
  have hrn : '\n' ∉ checkboxReplacement task := by
    intro hmem
    unfold checkboxReplacement at hmem
    rcases List.mem_append.mp hmem with h | h
    · revert h
      split <;> decide
    · exact hn h
  have hp : taskLineMatches task.title.data (checkboxReplacement task) = true := by
    unfold taskLineMatches checkboxReplacement
    split
    · simp
    · simp
  cases hidx : findLineIdx (taskLineMatches task.title.data)
      (splitOnNl content.data) with
  | some i =>
    have hne : (splitOnNl content.data).set i (checkboxReplacement task) ≠ [] := by
      intro h
      have hlen := congrArg List.length h
      rw [List.length_set] at hlen
      exact splitOnNl_ne_nil content.data (List.eq_nil_of_length_eq_zero hlen)
    have hparts : ∀ p ∈ (splitOnNl content.data).set i (checkboxReplacement task),
        '\n' ∉ p := by
      intro p hp'
      rcases mem_set_subset _ _ _ _ hp' with rfl | hmem
      · exact hrn
      · exact mem_splitOnNl_no_nl content.data p hmem
    have h1 : updateTaskInMarkdown content task =
        ⟨joinNl ((splitOnNl content.data).set i (checkboxReplacement task))⟩ := by
      simp only [updateTaskInMarkdown]
      rw [hidx]
      dsimp only
      rw [expandDollar_no_dollar _ _ _ _ hrd]
    have h2 : updateTaskInMarkdown
        ⟨joinNl ((splitOnNl content.data).set i (checkboxReplacement task))⟩
        task =
        ⟨joinNl ((splitOnNl content.data).set i (checkboxReplacement task))⟩ := by
      simp only [updateTaskInMarkdown]
      rw [splitOnNl_joinNl _ hne hparts]
      rw [findLineIdx_set _ _ _ hidx _ hp]
      dsimp only
      rw [expandDollar_no_dollar _ _ _ _ hrd, List.set_set]
    rw [h1, h2]
  | none =>
    have hall := findLineIdx_none _ _ hidx
    have hsplit : splitOnNl (content.data ++ '\n' ::
        (checkboxReplacement task ++ ['\n'])) =
        splitOnNl content.data ++ checkboxReplacement task :: [[]] := by
      rw [splitOnNl_append_nl]
      congr 1
      rw [show checkboxReplacement task ++ ['\n'] =
        checkboxReplacement task ++ '\n' :: [] from rfl]
      rw [splitOnNl_append_nl, splitOnNl_no_nl hrn]
      rfl
    have h1 : updateTaskInMarkdown content task =
        ⟨content.data ++ '\n' :: (checkboxReplacement task ++ ['\n'])⟩ := by
      simp only [updateTaskInMarkdown]
      rw [hidx]
    have h2 : updateTaskInMarkdown
        ⟨content.data ++ '\n' :: (checkboxReplacement task ++ ['\n'])⟩ task =
        ⟨content.data ++ '\n' :: (checkboxReplacement task ++ ['\n'])⟩ := by
      simp only [updateTaskInMarkdown]
      rw [hsplit]
      rw [findLineIdx_append_first _ hp _ _ hall]
      dsimp only
      rw [expandDollar_no_dollar _ _ _ _ hrd]
      rw [set_append_length]
      rw [← hsplit, joinNl_splitOnNl]
    rw [h1, h2]

theorem updateTaskInMarkdown_idempotent_witness :
    ('$' ∉ ("Write docs" : String).data) ∧
    updateTaskInMarkdown (updateTaskInMarkdown "# T\n- [ ] Write docs"
        { title := "Write docs", status := "done" })
      { title := "Write docs", status := "done" } =
    updateTaskInMarkdown "# T\n- [ ] Write docs"
      { title := "Write docs", status := "done" } :=
  ⟨by decide, updateTaskInMarkdown_idempotent "# T\n- [ ] Write docs"
    { title := "Write docs", status := "done" }
    (by decide) (by decide) (by decide)⟩

end ObsidianSync
